import Mathlib

/-!
Verification of `src/Fifo4b.hpp`: a bounded single-producer/single-consumer
circular FIFO with constrained cursors and cached cursors.

The C++ class `Fifo4b<T>` is shallowly embedded as a Lean `State` record
holding the fields `capacity_`, `ring_`, `pushCursor_`, `popCursorCached_`,
`popCursor_`, `pushCursorCached_` (same declaration order as the source),
with elements modelled as `Nat`.  The cursor type `size_type`
(`std::size_t`) is modelled as `Nat` with all of the source's unsigned
arithmetic performed modulo `2 ^ 64` (`USIZE`), so that wrap-around of the
machine subtraction `pushCursor - capacity_` is represented faithfully.

Single-threaded executions are sequences of `Op.push v` / `Op.pop` applied
from the freshly constructed queue; `runOps` threads the state and records
the successfully pushed and popped values.
-/

namespace Fifo4b

/-- Modulus of the machine type `size_type` (`std::size_t`, 64 bits). -/
def USIZE : Nat := 2 ^ 64

/-- C++ unsigned addition on `size_type`: wraps modulo `2 ^ 64`. -/
def uadd (a b : Nat) : Nat := (a + b) % USIZE

/-- C++ unsigned subtraction on `size_type`: wraps modulo `2 ^ 64`.
For machine values `a b < USIZE` this is `(a - b) mod 2^64`. -/
def usub (a b : Nat) : Nat := (a + (USIZE - b)) % USIZE

/-- The value of the C++ expression `pushCursor - capacity_` computed in
`Fifo4b::full` (src/Fifo4b.hpp line 138); unsigned machine subtraction. -/
def fullWrapDiff (capacity pushCursor : Nat) : Nat := usub pushCursor capacity

/-- `Fifo4b::full(pushCursor, popCursor)` (src/Fifo4b.hpp lines 134-142). -/
def full (capacity pushCursor popCursor : Nat) : Bool :=
  if pushCursor < popCursor then
    pushCursor == usub popCursor 1
  else if popCursor < pushCursor then
    popCursor == fullWrapDiff capacity pushCursor
  else
    false

/-- `Fifo4b::empty(pushCursor, popCursor)` (src/Fifo4b.hpp lines 143-145). -/
def empty (pushCursor popCursor : Nat) : Bool := pushCursor == popCursor

/-- `Fifo4b::size()` (src/Fifo4b.hpp lines 64-72), as a function of the two
cursor values read by the relaxed loads. -/
def size (capacity pushCursor popCursor : Nat) : Nat :=
  if popCursor ≤ pushCursor then
    usub pushCursor popCursor
  else
    usub capacity (usub popCursor (uadd pushCursor 1))

/-- The state of one `Fifo4b` object.  Field order follows the member
declarations (src/Fifo4b.hpp lines 148-167).  The ring is modelled as a
total function from slot index to the value last constructed there. -/
structure State where
  capacity : Nat
  ring : Nat → Nat
  pushCursor : Nat
  popCursorCached : Nat
  popCursor : Nat
  pushCursorCached : Nat

/-- The freshly constructed queue (src/Fifo4b.hpp lines 46-50): both atomic
cursors value-initialised to `0`, both cached cursors `{}`-initialised to
`0`; the ring is uninitialised storage, modelled as all zeros. -/
def initState (capacity : Nat) : State :=
  { capacity := capacity
    ring := fun _ => 0
    pushCursor := 0
    popCursorCached := 0
    popCursor := 0
    pushCursorCached := 0 }

/-- Writing one slot of the ring (`new (&ring_[pushCursor]) T(value)`). -/
def setSlot (ring : Nat → Nat) (i v : Nat) : Nat → Nat :=
  fun j => if j = i then v else ring j

/-- The unconditional tail of `Fifo4b::push` (src/Fifo4b.hpp lines 103-109):
construct the element in place and advance `pushCursor_`, wrapping through
`0` at `capacity_`. -/
def pushWrite (s : State) (value : Nat) : State :=
  { s with
    ring := setSlot s.ring s.pushCursor value
    pushCursor := if s.pushCursor = s.capacity then 0 else s.pushCursor + 1 }

/-- `Fifo4b::push` (src/Fifo4b.hpp lines 94-110).  Returns the state after
the call together with the C++ return value. -/
def push (s : State) (value : Nat) : State × Bool :=
  if full s.capacity s.pushCursor s.popCursorCached then
    let s' := { s with popCursorCached := s.popCursor }
    if full s'.capacity s'.pushCursor s'.popCursorCached then
      (s', false)
    else
      (pushWrite s' value, true)
  else
    (pushWrite s value, true)

/-- The cursor-advance tail of `Fifo4b::pop` (src/Fifo4b.hpp lines 125-129):
advance `popCursor_`, wrapping through `0` at `capacity_`. -/
def popAdvance (s : State) : State :=
  { s with
    popCursor := if s.popCursor = s.capacity then 0 else s.popCursor + 1 }

/-- `Fifo4b::pop` (src/Fifo4b.hpp lines 114-131).  The out-parameter and the
boolean return value are combined into an `Option`: `some v` when the pop
succeeds and yields `v`, `none` when the fifo is observed empty. -/
def pop (s : State) : State × Option Nat :=
  if empty s.pushCursorCached s.popCursor then
    let s' := { s with pushCursorCached := s.pushCursor }
    if empty s'.pushCursorCached s'.popCursor then
      (s', none)
    else
      (popAdvance s', some (s'.ring s'.popCursor))
  else
    (popAdvance s, some (s.ring s.popCursor))

/-- A single-threaded call made by the client. -/
inductive Op where
  | push (value : Nat)
  | pop
deriving DecidableEq

/-- A queue state together with the history of values successfully pushed
and values returned by successful pops (oldest first). -/
structure Trace where
  state : State
  pushed : List Nat
  popped : List Nat

/-- The trace of a freshly constructed queue. -/
def initTrace (capacity : Nat) : Trace :=
  { state := initState capacity, pushed := [], popped := [] }

/-- Perform one call and record its outcome. -/
def stepOp (t : Trace) (op : Op) : Trace :=
  match op with
  | Op.push v =>
    let r := push t.state v
    { state := r.1
      pushed := if r.2 then t.pushed ++ [v] else t.pushed
      popped := t.popped }
  | Op.pop =>
    let r := pop t.state
    { state := r.1
      pushed := t.pushed
      popped := match r.2 with
                | some v => t.popped ++ [v]
                | none => t.popped }

/-- Run a finite single-threaded sequence of calls from a fresh queue. -/
def runOps (capacity : Nat) (ops : List Op) : Trace :=
  ops.foldl stepOp (initTrace capacity)

/-- Forward distance from cursor `b` to cursor `a` around the ring of
`capacity + 1` slots; for in-range cursors this is the number of occupied
slots when `a` is the push cursor and `b` the pop cursor. -/
def ringDist (capacity a b : Nat) : Nat := (a + (capacity + 1) - b) % (capacity + 1)

/-- The live elements of the ring, oldest first: `ringDist` many slots
starting at the pop cursor. -/
def contentsAux (capacity : Nat) (ring : Nat → Nat) (pushC popC : Nat) : List Nat :=
  (List.range (ringDist capacity pushC popC)).map
    (fun i => ring ((popC + i) % (capacity + 1)))

/-- The abstract queue contents of a state, oldest first. -/
def contents (s : State) : List Nat :=
  contentsAux s.capacity s.ring s.pushCursor s.popCursor

/-- The internal invariant of a single-threaded execution: the capacity and
the cursors are in range, each thread's view of the occupancy through its
cached copy of the other thread's cursor is conservative (the producer
over-estimates, the consumer under-estimates), and the abstraction
equation: everything successfully pushed is either already popped, in
order, or still in the ring. -/
structure Inv (t : Trace) : Prop where
  pushLe : t.state.pushCursor ≤ t.state.capacity
  popLe : t.state.popCursor ≤ t.state.capacity
  cachedPopLe : t.state.popCursorCached ≤ t.state.capacity
  cachedPushLe : t.state.pushCursorCached ≤ t.state.capacity
  prodView : ringDist t.state.capacity t.state.pushCursor t.state.popCursor ≤
    ringDist t.state.capacity t.state.pushCursor t.state.popCursorCached
  consView : ringDist t.state.capacity t.state.pushCursorCached t.state.popCursor ≤
    ringDist t.state.capacity t.state.pushCursor t.state.popCursor
  absEq : t.pushed = t.popped ++ contents t.state

/-- Traces reachable from a freshly constructed queue by single-threaded
push/pop calls. -/
inductive Reach (capacity : Nat) : Trace → Prop where
  | init : Reach capacity (initTrace capacity)
  | step (t : Trace) (op : Op) : Reach capacity t → Reach capacity (stepOp t op)

/-- `n` push/pop pairs with increasing values: the calls
`push 0, pop, push 1, pop, …` used to exercise wrap-around. -/
def pairOps : Nat → List Op
  | 0 => []
  | n + 1 => pairOps n ++ [Op.push n, Op.pop]

/-- The first `k` pushes of the values `f 0, …, f (k-1)`. -/
def pushSeq (f : Nat → Nat) (k : Nat) : List Op :=
  (List.range k).map (fun i => Op.push (f i))

/-! ### Machine arithmetic -/

theorem usize_pos : 0 < USIZE := Nat.pow_pos (by norm_num)

theorem usub_of_le {a b : Nat} (hba : b ≤ a) (ha : a < USIZE) : usub a b = a - b := by
  unfold usub
  rw [show a + (USIZE - b) = (a - b) + USIZE by omega, Nat.add_mod_right]
  exact Nat.mod_eq_of_lt (by omega)

theorem usub_of_lt {a b : Nat} (hab : a < b) (hb : b < USIZE) :
    usub a b = USIZE - (b - a) := by
  unfold usub
  rw [show a + (USIZE - b) = USIZE - (b - a) by omega]
  exact Nat.mod_eq_of_lt (by omega)

theorem uadd_small {a b : Nat} (h : a + b < USIZE) : uadd a b = a + b :=
  Nat.mod_eq_of_lt h

/-! ### Ring distance -/

theorem mod_two_cap (cap x : Nat) (h : x ≤ 2 * cap + 1) :
    x % (cap + 1) = if x ≤ cap then x else x - (cap + 1) := by
  split
  · exact Nat.mod_eq_of_lt (by omega)
  · rw [Nat.mod_eq_sub_mod (by omega)]
    exact Nat.mod_eq_of_lt (by omega)

theorem ringDist_eq {cap a b : Nat} (ha : a ≤ cap) (hb : b ≤ cap) :
    ringDist cap a b = if b ≤ a then a - b else (cap + 1) - (b - a) := by
  unfold ringDist
  rw [mod_two_cap cap _ (by omega)]
  split_ifs <;> omega

theorem ringDist_le_cap (cap a b : Nat) : ringDist cap a b ≤ cap := by
  have := Nat.mod_lt (a + (cap + 1) - b) (y := cap + 1) (by omega)
  unfold ringDist
  omega

theorem ringDist_eq_zero_iff {cap a b : Nat} (ha : a ≤ cap) (hb : b ≤ cap) :
    ringDist cap a b = 0 ↔ a = b := by
  rw [ringDist_eq ha hb]
  split_ifs <;> omega

theorem ringDist_right_inj {cap a b b' : Nat} (ha : a ≤ cap) (hb : b ≤ cap)
    (hb' : b' ≤ cap) (h : ringDist cap a b = ringDist cap a b') : b = b' := by
  rw [ringDist_eq ha hb, ringDist_eq ha hb'] at h
  split_ifs at h <;> omega

theorem wrap_mod {cap p : Nat} (hp : p ≤ cap) :
    (if p = cap then 0 else p + 1) = (p + 1) % (cap + 1) := by
  split
  · next h => rw [h, Nat.mod_self]
  · exact (Nat.mod_eq_of_lt (by omega)).symm

theorem ringDist_push_succ {cap a b : Nat} (ha : a ≤ cap) (hb : b ≤ cap)
    (h : ringDist cap a b < cap) :
    ringDist cap ((a + 1) % (cap + 1)) b = ringDist cap a b + 1 := by
  rw [ringDist_eq ha hb] at h
  rcases Nat.lt_or_ge a cap with hlt | hge
  · rw [Nat.mod_eq_of_lt (by omega), ringDist_eq (by omega) hb, ringDist_eq ha hb]
    split_ifs at h ⊢ <;> omega
  · have hc : a = cap := le_antisymm ha hge
    subst hc
    rw [show (a + 1) % (a + 1) = 0 from Nat.mod_self _,
      ringDist_eq (Nat.zero_le _) hb, ringDist_eq le_rfl hb]
    split_ifs at h ⊢ <;> omega

theorem ringDist_pop_succ {cap a b : Nat} (ha : a ≤ cap) (hb : b ≤ cap)
    (h : 0 < ringDist cap a b) :
    ringDist cap a ((b + 1) % (cap + 1)) = ringDist cap a b - 1 := by
  rw [ringDist_eq ha hb] at h
  rcases Nat.lt_or_ge b cap with hlt | hge
  · rw [Nat.mod_eq_of_lt (by omega), ringDist_eq ha (by omega), ringDist_eq ha hb]
    split_ifs at h ⊢ <;> omega
  · have hc : b = cap := le_antisymm hb hge
    subst hc
    rw [show (b + 1) % (b + 1) = 0 from Nat.mod_self _,
      ringDist_eq ha (Nat.zero_le _), ringDist_eq ha le_rfl]
    split_ifs at h ⊢ <;> omega

theorem ringDist_slot {cap a b : Nat} (ha : a ≤ cap) (hb : b ≤ cap) :
    (b + ringDist cap a b) % (cap + 1) = a := by
  rw [ringDist_eq ha hb]
  split_ifs with hba
  · rw [show b + (a - b) = a from by omega]
    exact Nat.mod_eq_of_lt (by omega)
  · rw [show b + ((cap + 1) - (b - a)) = a + (cap + 1) from by omega, Nat.add_mod_right]
    exact Nat.mod_eq_of_lt (by omega)

theorem slot_ne {cap a b i : Nat} (ha : a ≤ cap) (hb : b ≤ cap)
    (hi : i < ringDist cap a b) : (b + i) % (cap + 1) ≠ a := by
  have hic : i < cap := lt_of_lt_of_le hi (ringDist_le_cap cap a b)
  rw [ringDist_eq ha hb] at hi
  rw [mod_two_cap cap (b + i) (by omega)]
  split_ifs at hi ⊢ <;> omega

/-! ### Characterisation of the state predicates -/

theorem empty_eq_true_iff {a b : Nat} : empty a b = true ↔ a = b := by
  simp [empty]

theorem full_eq_true_iff {cap a b : Nat} (hcap : 0 < cap) (hU : cap < USIZE)
    (ha : a ≤ cap) (hb : b ≤ cap) :
    full cap a b = true ↔ ringDist cap a b = cap := by
  by_cases h1 : a < b
  · simp only [full, if_pos h1, beq_iff_eq]
    rw [usub_of_le (by omega) (by omega), ringDist_eq ha hb]
    split_ifs <;> omega
  · by_cases h2 : b < a
    · simp only [full, if_neg h1, if_pos h2, fullWrapDiff, beq_iff_eq]
      rcases eq_or_lt_of_le ha with hc | hc
      · rw [usub_of_le hc.ge (by omega), ringDist_eq ha hb]
        split_ifs <;> omega
      · rw [usub_of_lt hc hU, ringDist_eq ha hb]
        split_ifs <;> omega
    · have hab : a = b := by omega
      subst hab
      simp only [full, if_neg h1, if_neg h2, Bool.false_eq_true, false_iff]
      rw [ringDist_eq ha ha]
      split_ifs <;> omega

theorem size_eq_ringDist {cap a b : Nat} (hU : cap < USIZE)
    (ha : a ≤ cap) (hb : b ≤ cap) : size cap a b = ringDist cap a b := by
  unfold size
  by_cases hba : b ≤ a
  · rw [if_pos hba, usub_of_le hba (by omega), ringDist_eq ha hb, if_pos hba]
  · rw [if_neg hba, uadd_small (by omega : a + 1 < USIZE),
      usub_of_le (by omega : a + 1 ≤ b) (by omega),
      usub_of_le (by omega : b - (a + 1) ≤ cap) hU,
      ringDist_eq ha hb, if_neg hba]
    omega

/-! ### Slot updates -/

theorem setSlot_self (r : Nat → Nat) (i v : Nat) : setSlot r i v i = v := by
  simp [setSlot]

theorem setSlot_other (r : Nat → Nat) (i v j : Nat) (h : j ≠ i) :
    setSlot r i v j = r j := by
  simp [setSlot, h]

theorem mod_le_cap (cap x : Nat) : x % (cap + 1) ≤ cap := by
  have := Nat.mod_lt x (y := cap + 1) (by omega)
  omega

/-! ### Evolution of the abstract contents -/

theorem contentsAux_push {cap : Nat} (ring : Nat → Nat) {p q : Nat} (v : Nat)
    (hp : p ≤ cap) (hq : q ≤ cap) (hlt : ringDist cap p q < cap) :
    contentsAux cap (setSlot ring p v) ((p + 1) % (cap + 1)) q =
      contentsAux cap ring p q ++ [v] := by
  unfold contentsAux
  rw [ringDist_push_succ hp hq hlt, List.range_succ, List.map_append]
  congr 1
  · exact List.map_eq_map_iff.mpr fun i hi =>
      setSlot_other _ _ _ _ (slot_ne hp hq (List.mem_range.mp hi))
  · simp only [List.map_cons, List.map_nil]
    rw [ringDist_slot hp hq, setSlot_self]

theorem contentsAux_pop {cap : Nat} (ring : Nat → Nat) {p q : Nat}
    (hp : p ≤ cap) (hq : q ≤ cap) (hpos : 0 < ringDist cap p q) :
    contentsAux cap ring p q =
      ring q :: contentsAux cap ring p ((q + 1) % (cap + 1)) := by
  unfold contentsAux
  obtain ⟨m, hm⟩ : ∃ m, ringDist cap p q = m + 1 := ⟨ringDist cap p q - 1, by omega⟩
  rw [hm, ringDist_pop_succ hp hq hpos, hm, Nat.add_sub_cancel,
    List.range_succ_eq_map, List.map_cons, List.map_map]
  congr 1
  · rw [Nat.add_zero, Nat.mod_eq_of_lt (by omega)]
  · refine List.map_eq_map_iff.mpr fun i hi => ?_
    simp only [Function.comp_apply]
    rw [Nat.mod_add_mod, show q + 1 + i = q + Nat.succ i from by omega]

/-! ### Unconditional facts about one call -/

theorem push_fields (s : State) (v : Nat) :
    (push s v).1.capacity = s.capacity ∧ (push s v).1.popCursor = s.popCursor ∧
    (push s v).1.pushCursorCached = s.pushCursorCached ∧
    ((push s v).1.popCursorCached = s.popCursorCached ∨
      (push s v).1.popCursorCached = s.popCursor) := by
  simp only [push]
  split
  · split
    · simp
    · simp [pushWrite]
  · simp [pushWrite]

theorem pop_fields (s : State) :
    (pop s).1.capacity = s.capacity ∧ (pop s).1.pushCursor = s.pushCursor ∧
    (pop s).1.popCursorCached = s.popCursorCached ∧
    ((pop s).1.pushCursorCached = s.pushCursorCached ∨
      (pop s).1.pushCursorCached = s.pushCursor) := by
  simp only [pop]
  split
  · split
    · simp
    · simp [popAdvance]
  · simp [popAdvance]

theorem set_cachedPop_self (s : State) {x : Nat} (h : s.popCursorCached = x) :
    { s with popCursorCached := x } = s := by
  cases s with
  | mk cap ring p cp q cq => cases h; rfl

theorem set_cachedPush_self (s : State) {x : Nat} (h : s.pushCursorCached = x) :
    { s with pushCursorCached := x } = s := by
  cases s with
  | mk cap ring p cp q cq => cases h; rfl

/-! ### Behaviour of one call from a state satisfying the cursor invariant -/

theorem push_spec (s : State) (v : Nat) (hc : 0 < s.capacity)
    (hU : s.capacity < USIZE)
    (hp : s.pushCursor ≤ s.capacity) (hq : s.popCursor ≤ s.capacity)
    (hcp : s.popCursorCached ≤ s.capacity)
    (hview : ringDist s.capacity s.pushCursor s.popCursor ≤
      ringDist s.capacity s.pushCursor s.popCursorCached) :
    (push s v = (s, false) ∧
      ringDist s.capacity s.pushCursor s.popCursor = s.capacity) ∨
    (∃ c, c ≤ s.capacity ∧
      ringDist s.capacity s.pushCursor s.popCursor ≤
        ringDist s.capacity s.pushCursor c ∧
      ringDist s.capacity s.pushCursor c < s.capacity ∧
      push s v = ({ s with
        ring := setSlot s.ring s.pushCursor v
        pushCursor := (s.pushCursor + 1) % (s.capacity + 1)
        popCursorCached := c }, true)) := by
  by_cases h1 : full s.capacity s.pushCursor s.popCursorCached = true
  · by_cases h2 : full s.capacity s.pushCursor s.popCursor = true
    · left
      have e1 := (full_eq_true_iff hc hU hp hcp).mp h1
      have e2 := (full_eq_true_iff hc hU hp hq).mp h2
      have hcpq : s.popCursorCached = s.popCursor :=
        ringDist_right_inj hp hcp hq (e1.trans e2.symm)
      refine ⟨?_, e2⟩
      simp only [push]
      rw [if_pos h1]
      dsimp only
      rw [if_pos h2, set_cachedPop_self s hcpq]
    · right
      have hne := fun hcontra => h2 ((full_eq_true_iff hc hU hp hq).mpr hcontra)
      refine ⟨s.popCursor, hq, le_rfl,
        lt_of_le_of_ne (ringDist_le_cap _ _ _) hne, ?_⟩
      simp only [push]
      rw [if_pos h1]
      dsimp only
      rw [if_neg h2]
      dsimp only [pushWrite]
      rw [wrap_mod hp]
  · right
    have hne := fun hcontra => h1 ((full_eq_true_iff hc hU hp hcp).mpr hcontra)
    refine ⟨s.popCursorCached, hcp, hview,
      lt_of_le_of_ne (ringDist_le_cap _ _ _) hne, ?_⟩
    simp only [push]
    rw [if_neg h1]
    dsimp only [pushWrite]
    rw [wrap_mod hp]

theorem pop_spec (s : State) (hc : 0 < s.capacity) (hU : s.capacity < USIZE)
    (hp : s.pushCursor ≤ s.capacity) (hq : s.popCursor ≤ s.capacity)
    (hcq : s.pushCursorCached ≤ s.capacity)
    (hview : ringDist s.capacity s.pushCursorCached s.popCursor ≤
      ringDist s.capacity s.pushCursor s.popCursor) :
    (pop s = (s, none) ∧ ringDist s.capacity s.pushCursor s.popCursor = 0) ∨
    (∃ c, c ≤ s.capacity ∧ 0 < ringDist s.capacity c s.popCursor ∧
      ringDist s.capacity c s.popCursor ≤
        ringDist s.capacity s.pushCursor s.popCursor ∧
      pop s = ({ s with
        popCursor := (s.popCursor + 1) % (s.capacity + 1)
        pushCursorCached := c }, some (s.ring s.popCursor))) := by
  by_cases h1 : empty s.pushCursorCached s.popCursor = true
  · by_cases h2 : empty s.pushCursor s.popCursor = true
    · left
      have e1 := empty_eq_true_iff.mp h1
      have e2 := empty_eq_true_iff.mp h2
      refine ⟨?_, (ringDist_eq_zero_iff hp hq).mpr e2⟩
      simp only [pop]
      rw [if_pos h1]
      rw [if_pos h2, set_cachedPush_self s (e1.trans e2.symm)]
    · right
      have hne : s.pushCursor ≠ s.popCursor := fun hcontra =>
        h2 (empty_eq_true_iff.mpr hcontra)
      refine ⟨s.pushCursor, hp, ?_, le_rfl, ?_⟩
      · rcases Nat.eq_zero_or_pos (ringDist s.capacity s.pushCursor s.popCursor)
          with hz | hpos
        · exact absurd ((ringDist_eq_zero_iff hp hq).mp hz) hne
        · exact hpos
      · simp only [pop]
        rw [if_pos h1]
        rw [if_neg h2]
        dsimp only [popAdvance]
        rw [wrap_mod hq]
  · right
    have hne : s.pushCursorCached ≠ s.popCursor := fun hcontra =>
      h1 (empty_eq_true_iff.mpr hcontra)
    refine ⟨s.pushCursorCached, hcq, ?_, hview, ?_⟩
    · rcases Nat.eq_zero_or_pos (ringDist s.capacity s.pushCursorCached s.popCursor)
        with hz | hpos
      · exact absurd ((ringDist_eq_zero_iff hcq hq).mp hz) hne
      · exact hpos
    · simp only [pop]
      rw [if_neg h1]
      dsimp only [popAdvance]
      rw [wrap_mod hq]

/-! ### Preservation of the invariant -/

theorem stepOp_push_eq_of_fail {t : Trace} {v : Nat}
    (h : push t.state v = (t.state, false)) : stepOp t (Op.push v) = t := by
  simp [stepOp, h]

theorem stepOp_pop_eq_of_fail {t : Trace} (h : pop t.state = (t.state, none)) :
    stepOp t Op.pop = t := by
  simp [stepOp, h]

theorem inv_step (t : Trace) (op : Op) (hc : 0 < t.state.capacity)
    (hU : t.state.capacity < USIZE) (h : Inv t) : Inv (stepOp t op) := by
  obtain ⟨hp, hq, hcp, hcq, hpv, hcv, habs⟩ := h
  cases op with
  | push v =>
    rcases push_spec t.state v hc hU hp hq hcp hpv with
      ⟨heq, _⟩ | ⟨c, hcle, hge, hlt, heq⟩
    · rw [stepOp_push_eq_of_fail heq]
      exact ⟨hp, hq, hcp, hcq, hpv, hcv, habs⟩
    · have hsz : ringDist t.state.capacity t.state.pushCursor t.state.popCursor <
          t.state.capacity := lt_of_le_of_lt hge hlt
      have hstep : stepOp t (Op.push v) =
          { state := { t.state with
              ring := setSlot t.state.ring t.state.pushCursor v
              pushCursor := (t.state.pushCursor + 1) % (t.state.capacity + 1)
              popCursorCached := c }
            pushed := t.pushed ++ [v]
            popped := t.popped } := by
        simp [stepOp, heq]
      rw [hstep]
      refine ⟨?_, ?_, ?_, ?_, ?_, ?_, ?_⟩ <;> dsimp only
      · exact mod_le_cap _ _
      · exact hq
      · exact hcle
      · exact hcq
      · rw [ringDist_push_succ hp hq hsz, ringDist_push_succ hp hcle hlt]
        omega
      · rw [ringDist_push_succ hp hq hsz]
        omega
      · have hcontents : contents { t.state with
            ring := setSlot t.state.ring t.state.pushCursor v
            pushCursor := (t.state.pushCursor + 1) % (t.state.capacity + 1)
            popCursorCached := c } = contents t.state ++ [v] := by
          dsimp only [contents]
          exact contentsAux_push t.state.ring v hp hq hsz
        rw [hcontents, habs, List.append_assoc]
  | pop =>
    rcases pop_spec t.state hc hU hp hq hcq hcv with
      ⟨heq, _⟩ | ⟨c, hcle, hpos, hle, heq⟩
    · rw [stepOp_pop_eq_of_fail heq]
      exact ⟨hp, hq, hcp, hcq, hpv, hcv, habs⟩
    · have hpos2 : 0 < ringDist t.state.capacity t.state.pushCursor t.state.popCursor :=
        lt_of_lt_of_le hpos hle
      have hstep : stepOp t Op.pop =
          { state := { t.state with
              popCursor := (t.state.popCursor + 1) % (t.state.capacity + 1)
              pushCursorCached := c }
            pushed := t.pushed
            popped := t.popped ++ [t.state.ring t.state.popCursor] } := by
        simp [stepOp, heq]
      rw [hstep]
      refine ⟨?_, ?_, ?_, ?_, ?_, ?_, ?_⟩ <;> dsimp only
      · exact hp
      · exact mod_le_cap _ _
      · exact hcp
      · exact hcle
      · rw [ringDist_pop_succ hp hq hpos2]
        omega
      · rw [ringDist_pop_succ hcle hq hpos, ringDist_pop_succ hp hq hpos2]
        omega
      · have hdec : contents t.state = t.state.ring t.state.popCursor ::
            contents { t.state with
              popCursor := (t.state.popCursor + 1) % (t.state.capacity + 1)
              pushCursorCached := c } := by
          dsimp only [contents]
          exact contentsAux_pop t.state.ring hp hq hpos2
        rw [habs, hdec, List.append_assoc, List.singleton_append]

theorem capacity_stepOp (t : Trace) (op : Op) :
    (stepOp t op).state.capacity = t.state.capacity := by
  cases op with
  | push v => exact (push_fields t.state v).1
  | pop => exact (pop_fields t.state).1

theorem inv_init (capacity : Nat) : Inv (initTrace capacity) := by
  refine ⟨?_, ?_, ?_, ?_, ?_, ?_, ?_⟩ <;>
    simp [initTrace, initState, contents, contentsAux, ringDist, Nat.mod_self]

theorem inv_foldl (ops : List Op) :
    ∀ t : Trace, 0 < t.state.capacity → t.state.capacity < USIZE → Inv t →
      Inv (ops.foldl stepOp t) ∧
      (ops.foldl stepOp t).state.capacity = t.state.capacity := by
  induction ops with
  | nil => exact fun t _ _ h3 => ⟨h3, rfl⟩
  | cons op rest ih =>
    intro t h1 h2 h3
    have hcap := capacity_stepOp t op
    have hrec := ih (stepOp t op) (by rw [hcap]; exact h1) (by rw [hcap]; exact h2)
      (inv_step t op h1 h2 h3)
    exact ⟨hrec.1, hrec.2.trans hcap⟩

theorem inv_runOps (capacity : Nat) (ops : List Op) (hc : 0 < capacity)
    (hU : capacity < USIZE) :
    Inv (runOps capacity ops) ∧ (runOps capacity ops).state.capacity = capacity :=
  inv_foldl ops (initTrace capacity) hc hU (inv_init capacity)

theorem reach_foldl (capacity : Nat) (ops : List Op) :
    ∀ t, Reach capacity t → Reach capacity (ops.foldl stepOp t) := by
  induction ops with
  | nil => exact fun _ h => h
  | cons op rest ih => exact fun t h => ih (stepOp t op) (Reach.step t op h)

theorem reach_runOps (capacity : Nat) (ops : List Op) :
    Reach capacity (runOps capacity ops) :=
  reach_foldl capacity ops (initTrace capacity) Reach.init

theorem cached_history {capacity : Nat} {t : Trace} (h : Reach capacity t) :
    (∃ t1, Reach capacity t1 ∧ t1.state.popCursor = t.state.popCursorCached) ∧
    (∃ t2, Reach capacity t2 ∧ t2.state.pushCursor = t.state.pushCursorCached) := by
  induction h with
  | init =>
    exact ⟨⟨initTrace capacity, Reach.init, rfl⟩,
      ⟨initTrace capacity, Reach.init, rfl⟩⟩
  | step t op ht ih =>
    obtain ⟨⟨t1, ht1, he1⟩, ⟨t2, ht2, he2⟩⟩ := ih
    cases op with
    | push v =>
      refine ⟨?_, ⟨t2, ht2, ?_⟩⟩
      · rcases (push_fields t.state v).2.2.2 with hsame | hnew
        · exact ⟨t1, ht1, he1.trans hsame.symm⟩
        · exact ⟨t, ht, hnew.symm⟩
      · exact he2.trans (push_fields t.state v).2.2.1.symm
    | pop =>
      refine ⟨⟨t1, ht1, ?_⟩, ?_⟩
      · exact he1.trans (pop_fields t.state).2.2.1.symm
      · rcases (pop_fields t.state).2.2.2 with hsame | hnew
        · exact ⟨t2, ht2, he2.trans hsame.symm⟩
        · exact ⟨t, ht, hnew.symm⟩

/-! ### The state after an initial run of pushes -/

theorem full_of_fresh_pop {capacity k : Nat} (hU : capacity < USIZE)
    (hk : k < capacity) : full capacity k 0 = false := by
  by_cases h0 : k = 0
  · subst h0
    rfl
  · simp only [full]
    rw [if_neg (by omega : ¬ k < 0), if_pos (by omega : 0 < k), fullWrapDiff,
      usub_of_lt (by omega : k < capacity) hU]
    exact beq_eq_false_iff_ne.mpr (by omega)

theorem runOps_pushSeq (capacity : Nat) (f : Nat → Nat)
    (hU : capacity < USIZE) :
    ∀ k, k ≤ capacity → ∃ r, runOps capacity (pushSeq f k) =
      ⟨⟨capacity, r, k, 0, 0, 0⟩, (List.range k).map f, []⟩ := by
  intro k
  induction k with
  | zero => exact fun _ => ⟨fun _ => 0, rfl⟩
  | succ n ih =>
    intro hk
    obtain ⟨r, hr⟩ := ih (by omega)
    refine ⟨setSlot r n (f n), ?_⟩
    have hseq : pushSeq f (n + 1) = pushSeq f n ++ [Op.push (f n)] := by
      simp [pushSeq, List.range_succ]
    have hsplit : runOps capacity (pushSeq f n ++ [Op.push (f n)]) =
        stepOp (runOps capacity (pushSeq f n)) (Op.push (f n)) := by
      dsimp only [runOps]
      rw [List.foldl_append]
      rfl
    rw [hseq, hsplit, hr]
    have hnotfull := full_of_fresh_pop hU (show n < capacity by omega)
    have hne : n ≠ capacity := by omega
    simp only [stepOp, push, hnotfull, Bool.false_eq_true, if_false, pushWrite,
      if_neg hne]
    rw [List.range_succ, List.map_append]
    rfl

/-! ### Capacity-zero executions -/

theorem runOps_cap0_state (ops : List Op) :
    ∃ r, (runOps 0 ops).state =
      { capacity := 0, ring := r, pushCursor := 0, popCursorCached := 0,
        popCursor := 0, pushCursorCached := 0 } := by
  suffices h : ∀ t : Trace, (∃ r, t.state =
      { capacity := 0, ring := r, pushCursor := 0, popCursorCached := 0,
        popCursor := 0, pushCursorCached := 0 }) →
      ∃ r, (ops.foldl stepOp t).state =
      { capacity := 0, ring := r, pushCursor := 0, popCursorCached := 0,
        popCursor := 0, pushCursorCached := 0 } by
    exact h (initTrace 0) ⟨fun _ => 0, rfl⟩
  induction ops with
  | nil => exact fun t ht => ht
  | cons op rest ih =>
    intro t ht
    obtain ⟨r, hr⟩ := ht
    apply ih
    cases op with
    | push v =>
      refine ⟨setSlot r 0 v, ?_⟩
      show (push t.state v).1 = _
      rw [hr]
      rfl
    | pop =>
      refine ⟨r, ?_⟩
      show (pop t.state).1 = _
      rw [hr]
      rfl

/-! ### The claims -/

/-- C1: for every positive capacity and every finite single-threaded
sequence of push and pop calls from a freshly constructed queue, the values
returned by successful pops are exactly the successfully pushed values in
push order — the popped list followed by the current ring contents is the
pushed list, so nothing is duplicated, lost or reordered. -/
theorem c1_fifo_order (capacity : Nat) (ops : List Op) (hcap : 0 < capacity)
    (hU : capacity < USIZE) :
    (runOps capacity ops).pushed =
      (runOps capacity ops).popped ++ contents (runOps capacity ops).state :=
  (inv_runOps capacity ops hcap hU).1.absEq

/-- Witness for C1 at capacity `4` with `20` push/pop pairs, driving both
cursors through four full wrap-around cycles. -/
theorem c1_fifo_order_witness :
    0 < 4 ∧ 4 < USIZE ∧
      (runOps 4 (pairOps 20)).pushed =
        (runOps 4 (pairOps 20)).popped ++ contents (runOps 4 (pairOps 20)).state :=
  ⟨by decide, by decide, c1_fifo_order 4 (pairOps 20) (by decide) (by decide)⟩

/-- C2: for every positive capacity `N`, from a fresh queue all of the
first `N` pushes succeed (so `pushed` records all `N` values), the
`(N+1)`-th push returns `false`, and after one successful pop the next
push returns `true` again. -/
theorem c2_capacity_boundary (capacity : Nat) (f : Nat → Nat) (v w : Nat)
    (hc : 0 < capacity) (hU : capacity < USIZE) :
    (runOps capacity (pushSeq f capacity)).pushed = (List.range capacity).map f ∧
    (push (runOps capacity (pushSeq f capacity)).state v).2 = false ∧
    (pop (runOps capacity (pushSeq f capacity)).state).2.isSome = true ∧
    (push (pop (runOps capacity (pushSeq f capacity)).state).1 w).2 = true := by
  obtain ⟨r, hr⟩ := runOps_pushSeq capacity f hU capacity le_rfl
  rw [hr]
  have hfull : full capacity capacity 0 = true := by
    simp only [full]
    rw [if_neg (by omega : ¬ capacity < 0), if_pos hc, fullWrapDiff,
      usub_of_le le_rfl hU]
    simp
  have hempty : empty capacity 0 = false := beq_eq_false_iff_ne.mpr (by omega)
  have hc0 : (0 : Nat) ≠ capacity := by omega
  have hee : empty 0 0 = true := rfl
  refine ⟨rfl, ?_, ?_, ?_⟩
  · simp [push, hfull]
  · simp [pop, hempty, hee]
  · have hpop1 : (pop (⟨⟨capacity, r, capacity, 0, 0, 0⟩,
        (List.range capacity).map f, []⟩ : Trace).state).1 =
        ⟨capacity, r, capacity, 0, 1, capacity⟩ := by
      simp [pop, hempty, hee, popAdvance, hc0]
    rw [hpop1]
    have hfull2 : full capacity capacity 1 = false := by
      by_cases hc1 : capacity = 1
      · subst hc1
        simp [full]
      · simp only [full]
        rw [if_neg (by omega : ¬ capacity < 1), if_pos (by omega : 1 < capacity),
          fullWrapDiff, usub_of_le le_rfl hU]
        exact beq_eq_false_iff_ne.mpr (by omega)
    simp [push, hfull, hfull2]

/-- Witness for C2 at capacity `2`, pushing the values `0, 1`. -/
theorem c2_capacity_boundary_witness :
    0 < 2 ∧ 2 < USIZE ∧
      ((runOps 2 (pushSeq (fun i => i) 2)).pushed =
        (List.range 2).map (fun i => i) ∧
      (push (runOps 2 (pushSeq (fun i => i) 2)).state 5).2 = false ∧
      (pop (runOps 2 (pushSeq (fun i => i) 2)).state).2.isSome = true ∧
      (push (pop (runOps 2 (pushSeq (fun i => i) 2)).state).1 7).2 = true) :=
  ⟨by decide, by decide,
    c2_capacity_boundary 2 (fun i => i) 5 7 (by decide) (by decide)⟩

/-- C3: after any finite single-threaded sequence of calls, `size()`
computed from the state's own capacity and cursors equals the number of
successful pushes minus the number of successful pops, the pops never
outnumber the pushes, and the value lies in `[0, capacity]`. -/
theorem c3_size_counts (capacity : Nat) (ops : List Op) (hc : 0 < capacity)
    (hU : capacity < USIZE) :
    size (runOps capacity ops).state.capacity
        (runOps capacity ops).state.pushCursor
        (runOps capacity ops).state.popCursor =
      (runOps capacity ops).pushed.length - (runOps capacity ops).popped.length ∧
    (runOps capacity ops).popped.length ≤ (runOps capacity ops).pushed.length ∧
    size (runOps capacity ops).state.capacity
        (runOps capacity ops).state.pushCursor
        (runOps capacity ops).state.popCursor ≤ capacity := by
  obtain ⟨hinv, hcap⟩ := inv_runOps capacity ops hc hU
  have h1 : size (runOps capacity ops).state.capacity
      (runOps capacity ops).state.pushCursor
      (runOps capacity ops).state.popCursor =
      ringDist (runOps capacity ops).state.capacity
        (runOps capacity ops).state.pushCursor
        (runOps capacity ops).state.popCursor :=
    size_eq_ringDist (by rw [hcap]; exact hU) hinv.pushLe hinv.popLe
  have h2 : (runOps capacity ops).pushed.length =
      (runOps capacity ops).popped.length +
        (contents (runOps capacity ops).state).length := by
    rw [hinv.absEq, List.length_append]
  have h3 : (contents (runOps capacity ops).state).length =
      ringDist (runOps capacity ops).state.capacity
        (runOps capacity ops).state.pushCursor
        (runOps capacity ops).state.popCursor := by
    simp [contents, contentsAux]
  have h4 := ringDist_le_cap (runOps capacity ops).state.capacity
    (runOps capacity ops).state.pushCursor (runOps capacity ops).state.popCursor
  refine ⟨by omega, by omega, by omega⟩

/-- Witness for C3 at capacity `3`, on a sequence with one failed pop
(five calls, three successful pushes, one successful pop, size `2`). -/
theorem c3_size_counts_witness :
    0 < 3 ∧ 3 < USIZE ∧
      (size (runOps 3 [Op.push 4, Op.pop, Op.pop, Op.push 5, Op.push 6]).state.capacity
          (runOps 3 [Op.push 4, Op.pop, Op.pop, Op.push 5, Op.push 6]).state.pushCursor
          (runOps 3 [Op.push 4, Op.pop, Op.pop, Op.push 5, Op.push 6]).state.popCursor =
        (runOps 3 [Op.push 4, Op.pop, Op.pop, Op.push 5, Op.push 6]).pushed.length -
          (runOps 3 [Op.push 4, Op.pop, Op.pop, Op.push 5, Op.push 6]).popped.length ∧
      (runOps 3 [Op.push 4, Op.pop, Op.pop, Op.push 5, Op.push 6]).popped.length ≤
        (runOps 3 [Op.push 4, Op.pop, Op.pop, Op.push 5, Op.push 6]).pushed.length ∧
      size (runOps 3 [Op.push 4, Op.pop, Op.pop, Op.push 5, Op.push 6]).state.capacity
          (runOps 3 [Op.push 4, Op.pop, Op.pop, Op.push 5, Op.push 6]).state.pushCursor
          (runOps 3 [Op.push 4, Op.pop, Op.pop, Op.push 5, Op.push 6]).state.popCursor ≤ 3) :=
  ⟨by decide, by decide,
    c3_size_counts 3 [Op.push 4, Op.pop, Op.pop, Op.push 5, Op.push 6]
      (by decide) (by decide)⟩

/-- C4: for every positive capacity and every pair of cursor values in
`[0, capacity]` (which is exactly the set of live-cursor pairs reachable
from a fresh queue), `full` and `empty` are never simultaneously true,
`empty` holds iff `size` is `0`, and `full` holds iff `size` equals the
capacity. -/
theorem c4_predicates (capacity p q : Nat) (hc : 0 < capacity)
    (hU : capacity < USIZE) (hp : p ≤ capacity) (hq : q ≤ capacity) :
    (¬ (full capacity p q = true ∧ empty p q = true)) ∧
    (empty p q = true ↔ size capacity p q = 0) ∧
    (full capacity p q = true ↔ size capacity p q = capacity) := by
  have hs := size_eq_ringDist hU hp hq
  have hf := full_eq_true_iff hc hU hp hq
  have hz := ringDist_eq_zero_iff hp hq
  refine ⟨?_, ?_, ?_⟩
  · rintro ⟨h1, h2⟩
    have e1 := hf.mp h1
    have e2 := hz.mpr (empty_eq_true_iff.mp h2)
    omega
  · rw [empty_eq_true_iff, hs]
    exact hz.symm
  · rw [hs]
    exact hf

/-- Witness for C4 at capacity `2` with cursors `1` and `0`. -/
theorem c4_predicates_witness :
    0 < 2 ∧ 2 < USIZE ∧ 1 ≤ 2 ∧ 0 ≤ 2 ∧
      ((¬ (full 2 1 0 = true ∧ empty 1 0 = true)) ∧
      (empty 1 0 = true ↔ size 2 1 0 = 0) ∧
      (full 2 1 0 = true ↔ size 2 1 0 = 2)) :=
  ⟨by decide, by decide, by decide, by decide,
    c4_predicates 2 1 0 (by decide) (by decide) (by decide) (by decide)⟩

/-- C5: in every reachable state both cursors lie in `[0, capacity]`; a
push leaves `popCursor` unchanged and sets `pushCursor` to
`(pushCursor + 1) mod (capacity + 1)` exactly when it succeeds, keeping it
unchanged when it fails; a pop mirrors this for `popCursor`; and the
cursors after either call are again in `[0, capacity]`. -/
theorem c5_cursor_wrap (capacity : Nat) (ops : List Op) (v : Nat)
    (hc : 0 < capacity) (hU : capacity < USIZE) :
    (runOps capacity ops).state.pushCursor ≤ capacity ∧
    (runOps capacity ops).state.popCursor ≤ capacity ∧
    (push (runOps capacity ops).state v).1.pushCursor =
      (if (push (runOps capacity ops).state v).2 = true
        then ((runOps capacity ops).state.pushCursor + 1) % (capacity + 1)
        else (runOps capacity ops).state.pushCursor) ∧
    (push (runOps capacity ops).state v).1.popCursor =
      (runOps capacity ops).state.popCursor ∧
    (push (runOps capacity ops).state v).1.pushCursor ≤ capacity ∧
    (pop (runOps capacity ops).state).1.popCursor =
      (if ((pop (runOps capacity ops).state).2).isSome = true
        then ((runOps capacity ops).state.popCursor + 1) % (capacity + 1)
        else (runOps capacity ops).state.popCursor) ∧
    (pop (runOps capacity ops).state).1.pushCursor =
      (runOps capacity ops).state.pushCursor ∧
    (pop (runOps capacity ops).state).1.popCursor ≤ capacity := by
  obtain ⟨hinv, hcap⟩ := inv_runOps capacity ops hc hU
  have hp := hinv.pushLe
  have hq := hinv.popLe
  rw [hcap] at hp hq
  have hpush : (push (runOps capacity ops).state v).1.pushCursor =
      (if (push (runOps capacity ops).state v).2 = true
        then ((runOps capacity ops).state.pushCursor + 1) % (capacity + 1)
        else (runOps capacity ops).state.pushCursor) ∧
      (push (runOps capacity ops).state v).1.popCursor =
        (runOps capacity ops).state.popCursor ∧
      (push (runOps capacity ops).state v).1.pushCursor ≤ capacity := by
    rcases push_spec (runOps capacity ops).state v (by rw [hcap]; exact hc)
        (by rw [hcap]; exact hU) hinv.pushLe hinv.popLe hinv.cachedPopLe
        hinv.prodView with ⟨heq, _⟩ | ⟨c, _, _, _, heq⟩
    · rw [heq]
      exact ⟨by simp, rfl, hp⟩
    · rw [hcap] at heq
      rw [heq]
      exact ⟨by simp, rfl, mod_le_cap capacity _⟩
  have hpop : (pop (runOps capacity ops).state).1.popCursor =
      (if ((pop (runOps capacity ops).state).2).isSome = true
        then ((runOps capacity ops).state.popCursor + 1) % (capacity + 1)
        else (runOps capacity ops).state.popCursor) ∧
      (pop (runOps capacity ops).state).1.pushCursor =
        (runOps capacity ops).state.pushCursor ∧
      (pop (runOps capacity ops).state).1.popCursor ≤ capacity := by
    rcases pop_spec (runOps capacity ops).state (by rw [hcap]; exact hc)
        (by rw [hcap]; exact hU) hinv.pushLe hinv.popLe hinv.cachedPushLe
        hinv.consView with ⟨heq, _⟩ | ⟨c, _, _, _, heq⟩
    · rw [heq]
      exact ⟨by simp, rfl, hq⟩
    · rw [hcap] at heq
      rw [heq]
      exact ⟨by simp, rfl, mod_le_cap capacity _⟩
  exact ⟨hp, hq, hpush.1, hpush.2.1, hpush.2.2, hpop.1, hpop.2.1, hpop.2.2⟩

/-- Witness for C5 at capacity `2` after one push (the next push succeeds
and wraps the cursor modulo `3`; the pop succeeds as well). -/
theorem c5_cursor_wrap_witness :
    0 < 2 ∧ 2 < USIZE ∧
      ((runOps 2 [Op.push 1]).state.pushCursor ≤ 2 ∧
      (runOps 2 [Op.push 1]).state.popCursor ≤ 2 ∧
      (push (runOps 2 [Op.push 1]).state 9).1.pushCursor =
        (if (push (runOps 2 [Op.push 1]).state 9).2 = true
          then ((runOps 2 [Op.push 1]).state.pushCursor + 1) % (2 + 1)
          else (runOps 2 [Op.push 1]).state.pushCursor) ∧
      (push (runOps 2 [Op.push 1]).state 9).1.popCursor =
        (runOps 2 [Op.push 1]).state.popCursor ∧
      (push (runOps 2 [Op.push 1]).state 9).1.pushCursor ≤ 2 ∧
      (pop (runOps 2 [Op.push 1]).state).1.popCursor =
        (if ((pop (runOps 2 [Op.push 1]).state).2).isSome = true
          then ((runOps 2 [Op.push 1]).state.popCursor + 1) % (2 + 1)
          else (runOps 2 [Op.push 1]).state.popCursor) ∧
      (pop (runOps 2 [Op.push 1]).state).1.pushCursor =
        (runOps 2 [Op.push 1]).state.pushCursor ∧
      (pop (runOps 2 [Op.push 1]).state).1.popCursor ≤ 2) :=
  ⟨by decide, by decide, c5_cursor_wrap 2 [Op.push 1] 9 (by decide) (by decide)⟩

/-- C6: in every reachable state each cached cursor holds a value the
corresponding live cursor had in some reachable (earlier) state and is
only ever behind it — the producer's occupancy estimate through
`popCursorCached` is an over-estimate and the consumer's through
`pushCursorCached` an under-estimate — so a not-full verdict of the
producer's cached check implies the queue is truly not full, and a
not-empty verdict of the consumer's cached check implies it is truly not
empty. -/
theorem c6_cached_cursors (capacity : Nat) (ops : List Op) (hc : 0 < capacity)
    (hU : capacity < USIZE) :
    (∃ t1, Reach capacity t1 ∧
      t1.state.popCursor = (runOps capacity ops).state.popCursorCached) ∧
    (∃ t2, Reach capacity t2 ∧
      t2.state.pushCursor = (runOps capacity ops).state.pushCursorCached) ∧
    ringDist capacity (runOps capacity ops).state.pushCursor
        (runOps capacity ops).state.popCursor ≤
      ringDist capacity (runOps capacity ops).state.pushCursor
        (runOps capacity ops).state.popCursorCached ∧
    ringDist capacity (runOps capacity ops).state.pushCursorCached
        (runOps capacity ops).state.popCursor ≤
      ringDist capacity (runOps capacity ops).state.pushCursor
        (runOps capacity ops).state.popCursor ∧
    (full capacity (runOps capacity ops).state.pushCursor
        (runOps capacity ops).state.popCursorCached = false →
      full capacity (runOps capacity ops).state.pushCursor
        (runOps capacity ops).state.popCursor = false) ∧
    (empty (runOps capacity ops).state.pushCursorCached
        (runOps capacity ops).state.popCursor = false →
      empty (runOps capacity ops).state.pushCursor
        (runOps capacity ops).state.popCursor = false) := by
  obtain ⟨hinv, hcap⟩ := inv_runOps capacity ops hc hU
  obtain ⟨hh1, hh2⟩ := cached_history (reach_runOps capacity ops)
  have hp := hinv.pushLe
  have hq := hinv.popLe
  have hcp := hinv.cachedPopLe
  have hcq := hinv.cachedPushLe
  have hpv := hinv.prodView
  have hcv := hinv.consView
  rw [hcap] at hp hq hcp hcq hpv hcv
  refine ⟨hh1, hh2, hpv, hcv, ?_, ?_⟩
  · intro hfalse
    have h1 : ringDist capacity (runOps capacity ops).state.pushCursor
        (runOps capacity ops).state.popCursorCached ≠ capacity := fun hcon =>
      absurd ((full_eq_true_iff hc hU hp hcp).mpr hcon) (by simp [hfalse])
    cases hft : full capacity (runOps capacity ops).state.pushCursor
        (runOps capacity ops).state.popCursor with
    | false => rfl
    | true =>
      exfalso
      have e := (full_eq_true_iff hc hU hp hq).mp hft
      have hle := ringDist_le_cap capacity (runOps capacity ops).state.pushCursor
        (runOps capacity ops).state.popCursorCached
      exact h1 (by omega)
  · intro hfalse
    simp only [empty] at hfalse ⊢
    have hne := beq_eq_false_iff_ne.mp hfalse
    have h1 : 0 < ringDist capacity (runOps capacity ops).state.pushCursorCached
        (runOps capacity ops).state.popCursor :=
      Nat.pos_of_ne_zero fun hz => hne ((ringDist_eq_zero_iff hcq hq).mp hz)
    refine beq_eq_false_iff_ne.mpr fun hpq => ?_
    have h2 := (ringDist_eq_zero_iff hp hq).mpr hpq
    omega

/-- Witness for C6 at capacity `3` after `push, push, pop` (a state where
both cached checks report not-full and not-empty). -/
theorem c6_cached_cursors_witness :
    0 < 3 ∧ 3 < USIZE ∧
      ringDist 3 (runOps 3 [Op.push 10, Op.push 11, Op.pop]).state.pushCursor
          (runOps 3 [Op.push 10, Op.push 11, Op.pop]).state.popCursor ≤
        ringDist 3 (runOps 3 [Op.push 10, Op.push 11, Op.pop]).state.pushCursor
          (runOps 3 [Op.push 10, Op.push 11, Op.pop]).state.popCursorCached ∧
      ringDist 3 (runOps 3 [Op.push 10, Op.push 11, Op.pop]).state.pushCursorCached
          (runOps 3 [Op.push 10, Op.push 11, Op.pop]).state.popCursor ≤
        ringDist 3 (runOps 3 [Op.push 10, Op.push 11, Op.pop]).state.pushCursor
          (runOps 3 [Op.push 10, Op.push 11, Op.pop]).state.popCursor ∧
      full 3 (runOps 3 [Op.push 10, Op.push 11, Op.pop]).state.pushCursor
        (runOps 3 [Op.push 10, Op.push 11, Op.pop]).state.popCursor = false ∧
      empty (runOps 3 [Op.push 10, Op.push 11, Op.pop]).state.pushCursor
        (runOps 3 [Op.push 10, Op.push 11, Op.pop]).state.popCursor = false :=
  ⟨by decide, by decide,
    (c6_cached_cursors 3 [Op.push 10, Op.push 11, Op.pop]
      (by decide) (by decide)).2.2.1,
    (c6_cached_cursors 3 [Op.push 10, Op.push 11, Op.pop]
      (by decide) (by decide)).2.2.2.1,
    (c6_cached_cursors 3 [Op.push 10, Op.push 11, Op.pop]
      (by decide) (by decide)).2.2.2.2.1 (by decide),
    (c6_cached_cursors 3 [Op.push 10, Op.push 11, Op.pop]
      (by decide) (by decide)).2.2.2.2.2 (by decide)⟩

/-- C7: from any reachable state, a push that returns `false` and a pop
that returns `none` leave every component of the queue state unchanged
(the cache refresh on the failing path rewrites the cached cursor with the
value it already had). -/
theorem c7_failed_no_mutation (capacity : Nat) (ops : List Op) (v : Nat)
    (hc : 0 < capacity) (hU : capacity < USIZE) :
    ((push (runOps capacity ops).state v).2 = false →
      (push (runOps capacity ops).state v).1 = (runOps capacity ops).state) ∧
    ((pop (runOps capacity ops).state).2 = none →
      (pop (runOps capacity ops).state).1 = (runOps capacity ops).state) := by
  obtain ⟨hinv, hcap⟩ := inv_runOps capacity ops hc hU
  constructor
  · intro hfail
    rcases push_spec (runOps capacity ops).state v (by rw [hcap]; exact hc)
        (by rw [hcap]; exact hU) hinv.pushLe hinv.popLe hinv.cachedPopLe
        hinv.prodView with ⟨heq, _⟩ | ⟨c, _, _, _, heq⟩
    · rw [heq]
    · rw [heq] at hfail
      exact absurd hfail (by simp)
  · intro hfail
    rcases pop_spec (runOps capacity ops).state (by rw [hcap]; exact hc)
        (by rw [hcap]; exact hU) hinv.pushLe hinv.popLe hinv.cachedPushLe
        hinv.consView with ⟨heq, _⟩ | ⟨c, _, _, _, heq⟩
    · rw [heq]
    · rw [heq] at hfail
      exact absurd hfail (by simp)

/-- Witness for C7 at capacity `1`: the second push on a full queue fails
and changes nothing; a pop on the fresh queue fails and changes nothing. -/
theorem c7_failed_no_mutation_witness :
    0 < 1 ∧ 1 < USIZE ∧
      (push (runOps 1 [Op.push 3]).state 9).2 = false ∧
      (push (runOps 1 [Op.push 3]).state 9).1 = (runOps 1 [Op.push 3]).state ∧
      (pop (runOps 1 []).state).2 = none ∧
      (pop (runOps 1 []).state).1 = (runOps 1 []).state :=
  ⟨by decide, by decide, by decide,
    (c7_failed_no_mutation 1 [Op.push 3] 9 (by decide) (by decide)).1 (by decide),
    by decide,
    (c7_failed_no_mutation 1 [] 9 (by decide) (by decide)).2 (by decide)⟩

/-- C8 counterexample: in the state reached from a fresh capacity-4 queue
by `push, push, pop` the cursors are `2` and `1`, `full` evaluates its
`popCursor < pushCursor` branch comparing `popCursor` against the machine
subtraction `pushCursor - capacity_`, and that intermediate wraps to
`2^64 - 2`, far outside `[0, capacity]` — so the claim that no
intermediate leaves `[0, capacity]` and no subtraction underflows is
false. -/
theorem c8_no_underflow_counterexample :
    (runOps 4 [Op.push 10, Op.push 11, Op.pop]).state.pushCursor = 2 ∧
    (runOps 4 [Op.push 10, Op.push 11, Op.pop]).state.popCursor = 1 ∧
    full 4 2 1 = (1 == fullWrapDiff 4 2) ∧
    fullWrapDiff 4 2 = USIZE - 2 ∧
    ¬ fullWrapDiff 4 2 ≤ 4 := by
  decide

/-- C8 (amended): for in-range cursors every subtraction in `size()` stays
in `[0, capacity]` and `popCursor - 1` in `full()` never underflows, but
the intermediate `pushCursor - capacity_` in `full()` wraps below zero
whenever `popCursor < pushCursor < capacity`; the wrapped value always
exceeds `pushCursor`, hence never equals `popCursor`, so `full` still
returns exactly the mathematically correct occupancy test. -/
theorem c8_arith_amended (capacity p q : Nat) (hc : 0 < capacity)
    (hU : capacity < USIZE) (hp : p ≤ capacity) (hq : q ≤ capacity) :
    (q ≤ p → usub p q = p - q ∧ p - q ≤ capacity) ∧
    (p < q → uadd p 1 = p + 1 ∧ p + 1 ≤ capacity ∧
      usub q (uadd p 1) = q - (p + 1) ∧ q - (p + 1) ≤ capacity ∧
      usub capacity (usub q (uadd p 1)) = capacity - (q - (p + 1)) ∧
      usub q 1 = q - 1 ∧ q - 1 ≤ capacity) ∧
    (q < p → p < capacity →
      p < fullWrapDiff capacity p ∧ fullWrapDiff capacity p ≠ q) ∧
    (full capacity p q = true ↔ ringDist capacity p q = capacity) := by
  refine ⟨?_, ?_, ?_, full_eq_true_iff hc hU hp hq⟩
  · intro h
    exact ⟨usub_of_le h (by omega), by omega⟩
  · intro h
    have h1 : uadd p 1 = p + 1 := uadd_small (by omega)
    have h2 : usub q (p + 1) = q - (p + 1) := usub_of_le (by omega) (by omega)
    refine ⟨h1, by omega, ?_, by omega, ?_,
      usub_of_le (by omega) (by omega), by omega⟩
    · rw [h1]
      exact h2
    · rw [h1, h2]
      exact usub_of_le (by omega) hU
  · intro h1 h2
    have h3 : fullWrapDiff capacity p = USIZE - (capacity - p) :=
      usub_of_lt h2 hU
    constructor
    · rw [h3]
      omega
    · rw [h3]
      omega

/-- Witness for C8 (amended) at capacity `4`, cursors `2` and `1`. -/
theorem c8_arith_amended_witness :
    0 < 4 ∧ 4 < USIZE ∧ 2 ≤ 4 ∧ 1 ≤ 4 ∧
      (usub 2 1 = 2 - 1 ∧ 2 - 1 ≤ 4) ∧
      (2 < fullWrapDiff 4 2 ∧ fullWrapDiff 4 2 ≠ 1) ∧
      (full 4 2 1 = true ↔ ringDist 4 2 1 = 4) :=
  ⟨by decide, by decide, by decide, by decide,
    (c8_arith_amended 4 2 1 (by decide) (by decide) (by decide) (by decide)).1
      (by decide),
    (c8_arith_amended 4 2 1 (by decide) (by decide) (by decide) (by decide)).2.2.1
      (by decide) (by decide),
    (c8_arith_amended 4 2 1 (by decide) (by decide) (by decide) (by decide)).2.2.2⟩

/-- C10: on a queue constructed with capacity `0` (one backing slot), in
every reachable state the full check compares equal cursors and returns
`false`, so `push` returns `true` for every value, writes the value into
the single sentinel slot, stores `pushCursor` back as `0`, the queue still
satisfies `empty`, and a subsequent `pop` returns `none` — the pushed
element is never retrievable. -/
theorem c10_capacity_zero (ops : List Op) (v : Nat) :
    full (runOps 0 ops).state.capacity (runOps 0 ops).state.pushCursor
      (runOps 0 ops).state.popCursorCached = false ∧
    (push (runOps 0 ops).state v).2 = true ∧
    (push (runOps 0 ops).state v).1.pushCursor = 0 ∧
    (push (runOps 0 ops).state v).1.ring 0 = v ∧
    empty (push (runOps 0 ops).state v).1.pushCursor
      (push (runOps 0 ops).state v).1.popCursor = true ∧
    (pop (push (runOps 0 ops).state v).1).2 = none := by
  obtain ⟨r, hr⟩ := runOps_cap0_state ops
  rw [hr]
  exact ⟨rfl, rfl, rfl, rfl, rfl, rfl⟩

end Fifo4b
